import Mathlib

/-!
# Verification of the SimRC impedance pipeline

A shallow embedding of the numeric core of `app.py` (class `SimRC`): the
theoretical-impedance formula (`set_Z`), the waveform synthesizer (`set_V_in`),
the current deriver (`set_I_out`) and the spectral estimator (`set_dfts`),
modelled over the real numbers (numpy arrays become lists of reals, `np.fft.fft`
becomes the discrete-Fourier-transform sum it computes).
-/

open Real List Finset

namespace SimRC

noncomputable section

/-- Amplitude of the input voltage wave: `amp = 3.3 / 2`. -/
def amp : ℝ := 3.3 / 2

/-- `set_Z`: `C = self.nC * 10e-9; self.Z = abs(complex(self.R, -1/(self.freq*C)))`.
Note the Python literal `10e-9` equals `1e-8`. -/
def set_Z (R nC freq : ℕ) : ℝ :=
  Complex.abs ⟨(R : ℝ), -(1 / ((freq : ℝ) * ((nC : ℝ) * 10e-9)))⟩

/-- Duration of the sine wave in seconds: `duration = self.cycle_num / self.freq`. -/
def duration (cycle_num freq : ℕ) : ℝ := (cycle_num : ℝ) / (freq : ℝ)

/-- Sampling rate of the device: `samp_rate = self.freq * 100`. -/
def samp_rate (freq : ℕ) : ℕ := freq * 100

/-- `samp_num = int(duration * samp_rate)` (truncation of a non-negative real). -/
def samp_num (cycle_num freq : ℕ) : ℕ :=
  (⌊duration cycle_num freq * (samp_rate freq : ℝ)⌋).toNat

/-- Model of `np.linspace(start, stop, num)`: `num` evenly spaced values with
step `(stop - start)/(num - 1)`, both endpoints included (for `num ≥ 2`). -/
def linspace (start stop : ℝ) (num : ℕ) : List ℝ :=
  (List.range num).map fun i : ℕ => start + (stop - start) * (i : ℝ) / ((num : ℝ) - 1)

/-- `self.t = np.linspace(0, duration, num=samp_num)`. -/
def set_t (cycle_num freq : ℕ) : List ℝ :=
  linspace 0 (duration cycle_num freq) (samp_num cycle_num freq)

/-- `self.V_in = self.amp * np.sin(self.freq*(2*np.pi*self.t))`. -/
def set_V_in (cycle_num freq : ℕ) : List ℝ :=
  (set_t cycle_num freq).map fun t => amp * Real.sin ((freq : ℝ) * (2 * π * t))

/-- `self.I_out = (- self.V_in) / self.Z`. -/
def set_I_out (V_in : List ℝ) (Z : ℝ) : List ℝ := V_in.map fun v => (-v) / Z

/-- Bin `k` of `np.fft.fft(x)`: the sum over `j` of `x[j] * exp(-2*pi*i*j*k/n)`. -/
def dftBin (x : List ℝ) (k : ℕ) : ℂ :=
  ∑ j ∈ Finset.range x.length,
    (x.getD j 0 : ℂ) * Complex.exp (-(2 * (π : ℂ) * Complex.I) * j * k / x.length)

/-- `np.fft.fft(x)` as the list of its bins. -/
def fft (x : List ℝ) : List ℂ := (List.range x.length).map (dftBin x)

/-- `np.max` of a list of reals (junk value `0` on the empty list, on which the
source would raise). -/
def npMax (x : List ℝ) : ℝ := x.maximum.unbot' 0

/-- The single-sided amplitude spectrum computed in `set_dfts`:
`d = 2 * np.abs(np.fft.fft(x)) / len(x)` followed by `d[:len(d)//2]`. -/
def spectrum (x : List ℝ) : List ℝ :=
  ((fft x).map fun z => 2 * Complex.abs z / x.length).take (x.length / 2)

/-- The four slider-driven parameters of the `SimRC` class. -/
structure Params where
  freq : ℕ
  cycle_num : ℕ
  R : ℕ
  nC : ℕ

/-- The declared slider bounds: `freq ∈ [1,10000]`, `cycle_num ∈ [1,10]`,
`R ∈ [1,10000]`, `nC ∈ [1,1000]`. -/
def Valid (p : Params) : Prop :=
  1 ≤ p.freq ∧ p.freq ≤ 10000 ∧ 1 ≤ p.cycle_num ∧ p.cycle_num ≤ 10 ∧
    1 ≤ p.R ∧ p.R ≤ 10000 ∧ 1 ≤ p.nC ∧ p.nC ≤ 1000

/-- The state of the `SimRC` instance after all watchers have fired on a
parameter change. -/
structure Result where
  Z : ℝ
  t : List ℝ
  V_in : List ℝ
  I_out : List ℝ
  V_dft : List ℝ
  V_amp : ℝ
  I_dft : List ℝ
  I_amp : ℝ
  Z_calc : ℝ

/-- The full pipeline for one parameter snapshot, in the dependency order
`set_Z`, `set_V_in`, `set_I_out`, `set_dfts` of the watchers. -/
def compare (p : Params) : Result :=
  { Z := set_Z p.R p.nC p.freq
    t := set_t p.cycle_num p.freq
    V_in := set_V_in p.cycle_num p.freq
    I_out := set_I_out (set_V_in p.cycle_num p.freq) (set_Z p.R p.nC p.freq)
    V_dft := spectrum (set_V_in p.cycle_num p.freq)
    V_amp := npMax (spectrum (set_V_in p.cycle_num p.freq))
    I_dft := spectrum (set_I_out (set_V_in p.cycle_num p.freq) (set_Z p.R p.nC p.freq))
    I_amp := npMax (spectrum (set_I_out (set_V_in p.cycle_num p.freq)
      (set_Z p.R p.nC p.freq)))
    Z_calc := npMax (spectrum (set_V_in p.cycle_num p.freq)) /
      npMax (spectrum (set_I_out (set_V_in p.cycle_num p.freq)
        (set_Z p.R p.nC p.freq))) }

/-! ## Basic helper lemmas -/

lemma getD_map_of_lt {α β : Type} (f : α → β) (l : List α) (i : ℕ) (d : α) (e : β)
    (h : i < l.length) : (l.map f).getD i e = f (l.getD i d) := by
  rw [List.getD_eq_getElem?_getD, List.getD_eq_getElem?_getD,
    List.getElem?_eq_getElem (by simpa using h), List.getElem?_eq_getElem h]
  simp

lemma length_linspace (a b : ℝ) (n : ℕ) : (linspace a b n).length = n := by
  rw [linspace, List.length_map, List.length_range]

lemma linspace_getD (a b : ℝ) (n i : ℕ) (h : i < n) :
    (linspace a b n).getD i 0 = a + (b - a) * i / ((n : ℝ) - 1) := by
  unfold linspace
  rw [getD_map_of_lt _ _ _ 0 _ (by simpa using h), List.getD_eq_getElem?_getD,
    List.getElem?_eq_getElem (by simpa using h), Option.getD_some, List.getElem_range]

lemma samp_num_eq (c f : ℕ) (hf : 1 ≤ f) : samp_num c f = c * 100 := by
  have hf0 : (f : ℝ) ≠ 0 := Nat.cast_ne_zero.mpr (by omega)
  have h : duration c f * ((samp_rate f : ℕ) : ℝ) = ((c * 100 : ℕ) : ℝ) := by
    unfold duration samp_rate
    push_cast
    field_simp
    ring
  unfold samp_num
  rw [h, Int.floor_natCast]
  omega

lemma set_t_length (c f : ℕ) : (set_t c f).length = samp_num c f := by
  simp [set_t, length_linspace]

lemma set_V_in_length (c f : ℕ) : (set_V_in c f).length = samp_num c f := by
  simp [set_V_in, set_t_length]

lemma set_t_getD (c f i : ℕ) (h : i < samp_num c f) :
    (set_t c f).getD i 0 = duration c f * i / ((samp_num c f : ℝ) - 1) := by
  rw [set_t, linspace_getD _ _ _ _ h]
  ring

lemma set_V_in_getD (c f i : ℕ) (h : i < samp_num c f) :
    (set_V_in c f).getD i 0
      = amp * Real.sin ((f : ℝ) * (2 * π * (set_t c f).getD i 0)) := by
  unfold set_V_in
  exact getD_map_of_lt _ _ _ 0 _ (by rw [set_t_length]; exact h)

/-! ## C1: the theoretical impedance formula -/

/-- C1: for every valid parameter set, the theoretical impedance equals
sqrt(R^2 + X^2) where the reactance is X = 1/(f*C) (no 2*pi factor) and the
capacitance is C = nC * 1e-8 farads (the documented 1e-8 conversion). -/
theorem C1_theoretical_impedance (R nC freq : ℕ)
    (hR : 1 ≤ R) (hR' : R ≤ 10000) (hn : 1 ≤ nC) (hn' : nC ≤ 1000)
    (hf : 1 ≤ freq) (hf' : freq ≤ 10000) :
    set_Z R nC freq
      = Real.sqrt ((R : ℝ) ^ 2 + (1 / ((freq : ℝ) * ((nC : ℝ) * 1e-8))) ^ 2) := by
  unfold set_Z
  rw [Complex.abs_apply, Complex.normSq_mk]
  norm_num
  ring_nf

/-- Witness for C1 at the concrete valid input R = 100, nC = 100, freq = 1000. -/
theorem C1_witness :
    set_Z 100 100 1000
      = Real.sqrt (((100 : ℕ) : ℝ) ^ 2
          + (1 / (((1000 : ℕ) : ℝ) * (((100 : ℕ) : ℝ) * 1e-8))) ^ 2) :=
  C1_theoretical_impedance 100 100 1000 (by norm_num) (by norm_num) (by norm_num)
    (by norm_num) (by norm_num) (by norm_num)

/-! ## C3: the waveform synthesizer -/

/-- C3: for every valid parameter set, the synthesizer returns times and
voltages of equal length at least 2; the times are evenly spaced (constant
consecutive difference) and strictly increasing from 0 to cycle_num/freq
inclusive of both endpoints; voltages[i] = amp * sin(2*pi*freq*times[i]);
and the driving amplitude amp is 3.3/2. -/
theorem C3_synthesize (c f : ℕ) (hc : 1 ≤ c) (hc' : c ≤ 10)
    (hf : 1 ≤ f) (hf' : f ≤ 10000) :
    (set_t c f).length = (set_V_in c f).length ∧
      2 ≤ (set_t c f).length ∧
      (set_t c f).Pairwise (· < ·) ∧
      (set_t c f).getD 0 0 = 0 ∧
      (set_t c f).getD ((set_t c f).length - 1) 0 = (c : ℝ) / (f : ℝ) ∧
      (∀ i, i + 1 < (set_t c f).length →
        (set_t c f).getD (i + 1) 0 - (set_t c f).getD i 0
          = ((c : ℝ) / (f : ℝ)) / (((set_t c f).length : ℝ) - 1)) ∧
      (∀ i < (set_t c f).length,
        (set_V_in c f).getD i 0
          = amp * Real.sin (2 * π * (f : ℝ) * (set_t c f).getD i 0)) ∧
      amp = 3.3 / 2 := by
  have hn : samp_num c f = c * 100 := samp_num_eq c f hf
  have hn2 : 2 ≤ samp_num c f := by omega
  have hlen : (set_t c f).length = samp_num c f := set_t_length c f
  have hf0 : (f : ℝ) ≠ 0 := Nat.cast_ne_zero.mpr (by omega)
  have hd : 0 < duration c f := by
    unfold duration
    have h1 : (0 : ℝ) < (c : ℝ) := by exact_mod_cast (by omega : 0 < c)
    have h2 : (0 : ℝ) < (f : ℝ) := by exact_mod_cast (by omega : 0 < f)
    positivity
  have hm : (0 : ℝ) < (samp_num c f : ℝ) - 1 := by
    have : (2 : ℝ) ≤ (samp_num c f : ℝ) := by exact_mod_cast hn2
    linarith
  refine ⟨by rw [hlen, set_V_in_length], by omega, ?_, ?_, ?_, ?_, ?_, rfl⟩
  · unfold set_t linspace
    refine List.pairwise_map.mpr ((List.pairwise_lt_range _).imp ?_)
    intro i j hij
    have hij' : (i : ℝ) < (j : ℝ) := by exact_mod_cast hij
    simp only [zero_add, sub_zero]
    rw [div_lt_div_iff₀ hm hm]
    nlinarith [mul_pos (mul_pos hd (sub_pos.mpr hij')) hm]
  · rw [set_t_getD c f 0 (by omega)]
    simp
  · rw [hlen, set_t_getD c f (samp_num c f - 1) (by omega)]
    have hcast : ((samp_num c f - 1 : ℕ) : ℝ) = (samp_num c f : ℝ) - 1 := by
      have : 1 ≤ samp_num c f := by omega
      push_cast [this]
      ring
    rw [hcast, mul_div_assoc, div_self (ne_of_gt hm), mul_one]
    rfl
  · intro i hi
    rw [hlen] at hi
    rw [set_t_getD c f (i + 1) hi, set_t_getD c f i (by omega), div_sub_div_same,
      hlen]
    congr 1
    unfold duration
    push_cast
    ring
  · intro i hi
    rw [hlen] at hi
    rw [set_V_in_getD c f i hi]
    have : (f : ℝ) * (2 * π * (set_t c f).getD i 0)
        = 2 * π * (f : ℝ) * (set_t c f).getD i 0 := by ring
    rw [this]

/-- Witness for C3 at the valid parameter set freq = 1, cycle_num = 1. -/
theorem C3_witness :
    (set_t 1 1).length = (set_V_in 1 1).length ∧ 2 ≤ (set_t 1 1).length :=
  ⟨(C3_synthesize 1 1 (by norm_num) (by norm_num) (by norm_num) (by norm_num)).1,
    (C3_synthesize 1 1 (by norm_num) (by norm_num) (by norm_num)
      (by norm_num)).2.1⟩

/-! ## C4: the sample count -/

/-- C4: for every valid parameter set the sample count is
floor((cycle_num/freq) * (freq*100)), which equals cycle_num * 100. -/
theorem C4_sample_count (c f : ℕ) (hc : 1 ≤ c) (hc' : c ≤ 10)
    (hf : 1 ≤ f) (hf' : f ≤ 10000) :
    samp_num c f = (⌊((c : ℝ) / (f : ℝ)) * ((f : ℝ) * 100)⌋).toNat ∧
      samp_num c f = c * 100 := by
  constructor
  · unfold samp_num duration samp_rate
    push_cast
    rfl
  · exact samp_num_eq c f hf

/-- Witness for C4: frequency 1000 Hz with 2 cycles yields exactly 200 samples. -/
theorem C4_witness : samp_num 2 1000 = 200 := by
  have h := (C4_sample_count 2 1000 (by norm_num) (by norm_num) (by norm_num)
    (by norm_num)).2
  omega

/-! ## Spectrum helpers -/

lemma npMax_spec {x : List ℝ} (hx : x ≠ []) :
    npMax x ∈ x ∧ ∀ a ∈ x, a ≤ npMax x := by
  cases h : x.maximum with
  | bot => exact absurd h (List.maximum_ne_bot_of_ne_nil hx)
  | coe m =>
    have hm : npMax x = m := by simp [npMax, h]
    rw [hm]
    exact List.maximum_eq_coe_iff.mp h

lemma fft_length (x : List ℝ) : (fft x).length = x.length := by
  rw [fft, List.length_map, List.length_range]

lemma spectrum_length (x : List ℝ) : (spectrum x).length = x.length / 2 := by
  rw [spectrum, List.length_take, List.length_map, fft_length]
  exact Nat.min_eq_left (Nat.div_le_self _ _)

lemma spectrum_getD (x : List ℝ) (k : ℕ) (hk : k < x.length / 2) :
    (spectrum x).getD k 0 = 2 * Complex.abs (dftBin x k) / x.length := by
  have hk1 : k < x.length := lt_of_lt_of_le hk (Nat.div_le_self _ _)
  have hk2 : k < (spectrum x).length := by rw [spectrum_length]; exact hk
  have hk3 : k < ((fft x).map fun z => 2 * Complex.abs z / x.length).length := by
    rw [List.length_map, fft_length]; exact hk1
  have hk4 : k < (fft x).length := by rw [fft_length]; exact hk1
  have hk5 : k < (List.range x.length).length := by
    rw [List.length_range]; exact hk1
  rw [spectrum, List.getD_eq_getElem?_getD,
    List.getElem?_eq_getElem (by rw [List.length_take]; exact lt_min hk hk3),
    Option.getD_some, List.getElem_take, List.getElem_map]
  unfold fft
  simp only [List.getElem_map, List.getElem_range]

lemma spectrum_nonneg (x : List ℝ) : ∀ a ∈ spectrum x, 0 ≤ a := by
  intro a ha
  have ha' : a ∈ (fft x).map fun z => 2 * Complex.abs z / x.length :=
    List.take_subset _ _ ha
  obtain ⟨z, _, rfl⟩ := List.mem_map.mp ha'
  positivity

/-! ## C5: the spectral estimator -/

/-- C5: for every input series of length N at least 2, the spectrum has length
exactly N/2 (floor), its i-th entry is 2/N times the magnitude of the i-th
discrete-Fourier-transform bin of the full series, every entry is
non-negative, and the peak amplitude is the maximum over the retained bins. -/
theorem C5_spectral_estimator (x : List ℝ) (hx : 2 ≤ x.length) :
    (spectrum x).length = x.length / 2 ∧
      (∀ i < x.length / 2,
        (spectrum x).getD i 0 = 2 / x.length * Complex.abs (dftBin x i)) ∧
      (∀ a ∈ spectrum x, 0 ≤ a) ∧
      npMax (spectrum x) ∈ spectrum x ∧
      ∀ a ∈ spectrum x, a ≤ npMax (spectrum x) := by
  have hne : spectrum x ≠ [] := by
    have : (spectrum x).length ≠ 0 := by rw [spectrum_length]; omega
    exact fun h => this (by rw [h]; rfl)
  refine ⟨spectrum_length x, fun i hi => ?_, spectrum_nonneg x,
    (npMax_spec hne).1, (npMax_spec hne).2⟩
  rw [spectrum_getD x i hi]
  ring

/-- Witness for C5 at the two-element series [1.65, -1.65]. -/
theorem C5_witness :
    2 ≤ ([(1.65 : ℝ), -1.65]).length ∧
      (spectrum [(1.65 : ℝ), -1.65]).length = ([(1.65 : ℝ), -1.65]).length / 2 :=
  ⟨by simp, (C5_spectral_estimator [(1.65 : ℝ), -1.65] (by simp)).1⟩

/-! ## C6: the current deriver -/

/-- C6: for every non-empty voltage list and impedance Z > 0, the derived
current list has the same length and currents[i] = -voltages[i] / Z. -/
theorem C6_derive_current (V : List ℝ) (Z : ℝ) (hV : V ≠ []) (hZ : 0 < Z) :
    (set_I_out V Z).length = V.length ∧
      ∀ i < V.length, (set_I_out V Z).getD i 0 = -(V.getD i 0) / Z := by
  refine ⟨by simp [set_I_out], fun i hi => ?_⟩
  unfold set_I_out
  exact getD_map_of_lt _ _ _ 0 _ hi

/-- Witness for C6 at V = [1.65, -1.65], Z = 2. -/
theorem C6_witness :
    (set_I_out [(1.65 : ℝ), -1.65] 2).length = ([(1.65 : ℝ), -1.65]).length ∧
      ∀ i < ([(1.65 : ℝ), -1.65]).length,
        (set_I_out [(1.65 : ℝ), -1.65] 2).getD i 0
          = -(([(1.65 : ℝ), -1.65]).getD i 0) / 2 :=
  C6_derive_current [(1.65 : ℝ), -1.65] 2 (by simp) (by norm_num)

/-! ## C7: the comparator wiring -/

/-- C7: for every valid parameter set, the pipeline computes the empirical
impedance as the ratio of the peak spectral amplitude of the synthesized
voltage to that of the derived current, with the steps in the documented
order: set_Z, set_V_in, set_I_out, then both spectra. -/
theorem C7_compare_pipeline (p : Params) (h : Valid p) :
    (compare p).Z = set_Z p.R p.nC p.freq ∧
      (compare p).V_in = set_V_in p.cycle_num p.freq ∧
      (compare p).I_out = set_I_out (compare p).V_in (compare p).Z ∧
      (compare p).V_amp = npMax (spectrum (compare p).V_in) ∧
      (compare p).I_amp = npMax (spectrum (compare p).I_out) ∧
      (compare p).Z_calc = (compare p).V_amp / (compare p).I_amp :=
  ⟨rfl, rfl, rfl, rfl, rfl, rfl⟩

/-- Witness for C7 at the valid parameter set freq=1000, cycles=2, R=100, nC=100. -/
theorem C7_witness :
    Valid ⟨1000, 2, 100, 100⟩ ∧
      (compare ⟨1000, 2, 100, 100⟩).Z_calc
        = (compare ⟨1000, 2, 100, 100⟩).V_amp / (compare ⟨1000, 2, 100, 100⟩).I_amp :=
  ⟨by constructor <;> norm_num [Valid],
    (C7_compare_pipeline ⟨1000, 2, 100, 100⟩
      (by constructor <;> norm_num [Valid])).2.2.2.2.2⟩

/-! ## C10: monotonicity in the resistance -/

/-- C10: for every valid parameter set, doubling the resistance while holding
frequency and capacitance fixed strictly increases the theoretical impedance. -/
theorem C10_doubling_resistance (R nC freq : ℕ)
    (hR : 1 ≤ R) (hR' : R ≤ 10000) (hn : 1 ≤ nC) (hn' : nC ≤ 1000)
    (hf : 1 ≤ freq) (hf' : freq ≤ 10000) :
    set_Z R nC freq < set_Z (2 * R) nC freq := by
  unfold set_Z
  rw [Complex.abs_apply, Complex.abs_apply]
  apply Real.sqrt_lt_sqrt (Complex.normSq_nonneg _)
  rw [Complex.normSq_mk, Complex.normSq_mk]
  have hR1 : (1 : ℝ) ≤ (R : ℝ) := by exact_mod_cast hR
  push_cast
  nlinarith [hR1]

/-- Witness for C10 at R = 100, nC = 100, freq = 1000. -/
theorem C10_witness : set_Z 100 100 1000 < set_Z (2 * 100) 100 1000 :=
  C10_doubling_resistance 100 100 1000 (by norm_num) (by norm_num) (by norm_num)
    (by norm_num) (by norm_num) (by norm_num)

/-! ## Discrete Fourier analysis of the pipeline

The three classical facts used below: orthogonality of the DFT characters,
the inversion formula, and conjugate symmetry of the DFT of a real series. -/

lemma two_pi_I_ne_zero : (2 : ℂ) * (π : ℂ) * Complex.I ≠ 0 :=
  mul_ne_zero (mul_ne_zero two_ne_zero (Complex.ofReal_ne_zero.mpr Real.pi_ne_zero))
    Complex.I_ne_zero

lemma exp_unit_ne_one {n : ℕ} {m : ℤ} (hm0 : m ≠ 0) (hmn : m.natAbs < n) :
    Complex.exp (2 * (π : ℂ) * Complex.I * (m : ℂ) / (n : ℂ)) ≠ 1 := by
  intro h
  obtain ⟨k, hk⟩ := Complex.exp_eq_one_iff.mp h
  have hn0 : (n : ℂ) ≠ 0 := Nat.cast_ne_zero.mpr (by omega)
  have h3 : 2 * (π : ℂ) * Complex.I * (m : ℂ)
      = (k : ℂ) * (2 * (π : ℂ) * Complex.I) * (n : ℂ) := (div_eq_iff hn0).mp hk
  have h4 : 2 * (π : ℂ) * Complex.I * (m : ℂ)
      = 2 * (π : ℂ) * Complex.I * ((k : ℂ) * (n : ℂ)) := by rw [h3]; ring
  have h2 : (m : ℂ) = (k : ℂ) * (n : ℂ) := mul_left_cancel₀ two_pi_I_ne_zero h4
  have h5 : m = k * n := by exact_mod_cast h2
  rcases eq_or_ne k 0 with rfl | hk0
  · rw [zero_mul] at h5
    exact hm0 h5
  · have h6 : m.natAbs = k.natAbs * n := by
      rw [h5, Int.natAbs_mul]
      simp
    have h7 : 1 ≤ k.natAbs := Int.natAbs_pos.mpr hk0
    have h8 : n ≤ k.natAbs * n := Nat.le_mul_of_pos_left n h7
    omega

/-- Orthogonality of the DFT characters. -/
lemma dft_orth (n j i : ℕ) (hj : j < n) (hi : i < n) :
    (∑ k ∈ Finset.range n,
        Complex.exp (2 * (π : ℂ) * Complex.I * ((j : ℂ) - (i : ℂ)) * k / n))
      = if j = i then (n : ℂ) else 0 := by
  have hn0 : (n : ℂ) ≠ 0 := Nat.cast_ne_zero.mpr (by omega)
  have hterm : ∀ k : ℕ,
      Complex.exp (2 * (π : ℂ) * Complex.I * ((j : ℂ) - (i : ℂ)) * k / n)
        = Complex.exp (2 * (π : ℂ) * Complex.I * ((j : ℂ) - (i : ℂ)) / n) ^ k := by
    intro k
    rw [← Complex.exp_nat_mul]
    congr 1
    ring
  simp only [hterm]
  rcases eq_or_ne j i with rfl | hjj
  · rw [if_pos rfl]
    simp
  · rw [if_neg hjj]
    have hcast : (Int.cast ((j : ℤ) - (i : ℤ)) : ℂ) = (j : ℂ) - (i : ℂ) := by
      push_cast
      ring
    have hne : Complex.exp (2 * (π : ℂ) * Complex.I * ((j : ℂ) - (i : ℂ)) / n) ≠ 1 := by
      rw [← hcast]
      exact exp_unit_ne_one (by omega) (by omega)
    rw [geom_sum_eq hne]
    have hpow : Complex.exp (2 * (π : ℂ) * Complex.I * ((j : ℂ) - (i : ℂ)) / n) ^ n
        = 1 := by
      rw [← Complex.exp_nat_mul]
      have harg : (n : ℂ) * (2 * (π : ℂ) * Complex.I * ((j : ℂ) - (i : ℂ)) / n)
          = (Int.cast ((j : ℤ) - (i : ℤ)) : ℂ) * (2 * (π : ℂ) * Complex.I) := by
        rw [hcast]
        field_simp
        ring
      rw [harg, Complex.exp_int_mul_two_pi_mul_I]
    rw [hpow, sub_self, zero_div]

/-- Conjugate symmetry: for a real series, bin n - k is the conjugate of bin k. -/
lemma dftBin_mirror (x : List ℝ) (k : ℕ) (hk : k ≤ x.length) :
    dftBin x (x.length - k) = (starRingEnd ℂ) (dftBin x k) := by
  unfold dftBin
  rw [map_sum]
  apply Finset.sum_congr rfl
  intro j hj
  have hjlt : j < x.length := Finset.mem_range.mp hj
  have hn0 : (x.length : ℂ) ≠ 0 := Nat.cast_ne_zero.mpr (by omega)
  rw [map_mul, Complex.conj_ofReal]
  congr 1
  rw [← Complex.exp_conj]
  have hsplit : -(2 * (π : ℂ) * Complex.I) * j * ((x.length - k : ℕ) : ℂ) / x.length
      = -(2 * (π : ℂ) * Complex.I) * j
          + 2 * (π : ℂ) * Complex.I * j * k / x.length := by
    have hc : ((x.length - k : ℕ) : ℂ) = (x.length : ℂ) - (k : ℂ) := by
      push_cast [hk]
      ring
    rw [hc]
    field_simp
    ring
  rw [hsplit, Complex.exp_add]
  have h1 : Complex.exp (-(2 * (π : ℂ) * Complex.I) * j) = 1 := by
    have harg : -(2 * (π : ℂ) * Complex.I) * (j : ℂ)
        = (Int.cast (-(j : ℤ)) : ℂ) * (2 * (π : ℂ) * Complex.I) := by
      push_cast
      ring
    rw [harg, Complex.exp_int_mul_two_pi_mul_I]
  rw [h1, one_mul]
  congr 1
  simp only [map_div₀, map_neg, map_mul, map_ofNat, Complex.conj_I,
    Complex.conj_ofReal, map_natCast]
  ring

/-- The DFT inversion formula specialized to index j. -/
lemma dft_inversion (x : List ℝ) (j : ℕ) (hj : j < x.length) :
    (∑ k ∈ Finset.range x.length,
        dftBin x k * Complex.exp (2 * (π : ℂ) * Complex.I * k * j / x.length))
      = (x.length : ℂ) * (x.getD j 0 : ℂ) := by
  have hn0 : (x.length : ℂ) ≠ 0 := Nat.cast_ne_zero.mpr (by omega)
  calc (∑ k ∈ Finset.range x.length,
          dftBin x k * Complex.exp (2 * (π : ℂ) * Complex.I * k * j / x.length))
      = ∑ i ∈ Finset.range x.length, (x.getD i 0 : ℂ) *
          ∑ k ∈ Finset.range x.length,
            Complex.exp (2 * (π : ℂ) * Complex.I * ((j : ℂ) - (i : ℂ)) * k
              / x.length) := by
        unfold dftBin
        simp only [Finset.sum_mul]
        rw [Finset.sum_comm]
        apply Finset.sum_congr rfl
        intro i _
        rw [Finset.mul_sum]
        apply Finset.sum_congr rfl
        intro k _
        rw [mul_assoc]
        congr 1
        rw [← Complex.exp_add]
        congr 1
        field_simp
        ring
    _ = ∑ i ∈ Finset.range x.length, (x.getD i 0 : ℂ) *
          (if j = i then (x.length : ℂ) else 0) := by
        apply Finset.sum_congr rfl
        intro i hi
        rw [dft_orth x.length j i hj (Finset.mem_range.mp hi)]
    _ = (x.length : ℂ) * (x.getD j 0 : ℂ) := by
        rw [Finset.sum_eq_single j]
        · rw [if_pos rfl]
          ring
        · intro b _ hbj
          rw [if_neg fun h => hbj h.symm]
          ring
        · intro hj2
          exact absurd (Finset.mem_range.mpr hj) hj2

/-! ## Positivity and scaling helpers -/

lemma amp_pos : 0 < amp := by norm_num [amp]

lemma set_Z_pos (R nC freq : ℕ) (hn : 1 ≤ nC) (hf : 1 ≤ freq) :
    0 < set_Z R nC freq := by
  have h1 : (0 : ℝ) < (freq : ℝ) := by exact_mod_cast (by omega : 0 < freq)
  have h2 : (0 : ℝ) < (nC : ℝ) := by exact_mod_cast (by omega : 0 < nC)
  have hX : (0 : ℝ) < 1 / ((freq : ℝ) * ((nC : ℝ) * 10e-9)) :=
    one_div_pos.mpr (mul_pos h1 (mul_pos h2 (by norm_num)))
  unfold set_Z
  rw [Complex.abs_apply, Complex.normSq_mk]
  apply Real.sqrt_pos.mpr
  nlinarith [hX, mul_self_nonneg (R : ℝ), mul_pos hX hX]

lemma getElem_eq_getD {α : Type} (l : List α) (i : ℕ) (d : α) (h : i < l.length) :
    l[i] = l.getD i d := by
  rw [List.getD_eq_getElem?_getD, List.getElem?_eq_getElem h, Option.getD_some]

lemma set_V_in_val (c f : ℕ) (hc : 1 ≤ c) (hf : 1 ≤ f) (i : ℕ)
    (h : i < samp_num c f) :
    (set_V_in c f).getD i 0
      = amp * Real.sin (2 * π * (c : ℝ) * (i : ℝ) / ((samp_num c f : ℝ) - 1)) := by
  have hf0 : (f : ℝ) ≠ 0 := Nat.cast_ne_zero.mpr (by omega)
  have hn : samp_num c f = c * 100 := samp_num_eq c f hf
  have hm : ((samp_num c f : ℝ)) - 1 ≠ 0 := by
    have h100 : (100 : ℝ) ≤ (samp_num c f : ℝ) := by
      exact_mod_cast (by omega : 100 ≤ samp_num c f)
    linarith
  rw [set_V_in_getD c f i h, set_t_getD c f i h]
  have harg : (f : ℝ) * (2 * π * (duration c f * i / ((samp_num c f : ℝ) - 1)))
      = 2 * π * (c : ℝ) * (i : ℝ) / ((samp_num c f : ℝ) - 1) := by
    unfold duration
    field_simp
    ring
  rw [harg]

lemma npMax_map_div (l : List ℝ) (Z : ℝ) (hZ : 0 < Z) :
    npMax (l.map fun a => a / Z) = npMax l / Z := by
  rcases eq_or_ne l [] with rfl | hne
  · simp [npMax]
  · have hne2 : (l.map fun a => a / Z) ≠ [] := by
      intro h
      exact hne (List.map_eq_nil_iff.mp h)
    obtain ⟨hmem1, hub1⟩ := npMax_spec hne
    obtain ⟨hmem2, hub2⟩ := npMax_spec hne2
    have hle1 : npMax (l.map fun a => a / Z) ≤ npMax l / Z := by
      obtain ⟨a, ha, hae⟩ := List.mem_map.mp hmem2
      rw [← hae]
      have := hub1 a ha
      gcongr
    have hle2 : npMax l / Z ≤ npMax (l.map fun a => a / Z) :=
      hub2 _ (List.mem_map.mpr ⟨npMax l, hmem1, rfl⟩)
    linarith

lemma spectrum_set_I_out (V : List ℝ) (Z : ℝ) (hZ : 0 < Z) :
    spectrum (set_I_out V Z) = (spectrum V).map fun a => a / Z := by
  have hlen : (set_I_out V Z).length = V.length := by
    rw [set_I_out, List.length_map]
  have hbin : ∀ k : ℕ, dftBin (set_I_out V Z) k = -(Z : ℂ)⁻¹ * dftBin V k := by
    intro k
    unfold dftBin
    rw [hlen, Finset.mul_sum]
    apply Finset.sum_congr rfl
    intro j hj
    have hjl : j < V.length := Finset.mem_range.mp hj
    have hgd : (set_I_out V Z).getD j 0 = -(V.getD j 0) / Z := by
      unfold set_I_out
      exact getD_map_of_lt _ _ _ 0 _ hjl
    rw [hgd]
    push_cast
    ring
  have habs : ∀ k : ℕ, Complex.abs (dftBin (set_I_out V Z) k)
      = Complex.abs (dftBin V k) * Z⁻¹ := by
    intro k
    rw [hbin k, Complex.abs.map_mul]
    have hcast : (-(Z : ℂ)⁻¹) = (((-Z⁻¹ : ℝ)) : ℂ) := by push_cast; ring
    rw [hcast, Complex.abs_ofReal, abs_neg, abs_inv, abs_of_pos hZ]
    ring
  apply List.ext_getElem
  · rw [spectrum_length, List.length_map, spectrum_length, hlen]
  · intro i h1 h2
    have hi2 : i < V.length / 2 := by
      rw [spectrum_length, hlen] at h1
      exact h1
    have hi1 : i < (set_I_out V Z).length / 2 := by
      rw [hlen]
      exact hi2
    have hsv : i < (spectrum V).length := by
      rw [spectrum_length]
      exact hi2
    rw [getElem_eq_getD _ _ 0 h1, List.getElem_map, getElem_eq_getD _ _ 0 hsv,
      spectrum_getD _ i hi1, spectrum_getD V i hi2, habs i, hlen]
    ring

/-- The peak single-sided amplitude of the synthesized voltage is strictly
positive: were every retained bin zero, conjugate symmetry would force every
bin except the Nyquist one to vanish, inversion at sample 0 (whose value is 0)
would kill the Nyquist bin too, and inversion at sample 1 would then force
that sample to vanish, contradicting sin(2*pi*c/(100c-1)) > 0. -/
lemma V_amp_pos (c f : ℕ) (hc : 1 ≤ c) (hf : 1 ≤ f) :
    0 < npMax (spectrum (set_V_in c f)) := by
  have hsn : samp_num c f = c * 100 := samp_num_eq c f hf
  have hlen : (set_V_in c f).length = c * 100 := by
    rw [set_V_in_length, hsn]
  have hV0 : (set_V_in c f).getD 0 0 = 0 := by
    rw [set_V_in_val c f hc hf 0 (by omega)]
    simp
  have hV1 : 0 < (set_V_in c f).getD 1 0 := by
    rw [set_V_in_val c f hc hf 1 (by omega)]
    apply mul_pos amp_pos
    have hcR : (1 : ℝ) ≤ (c : ℝ) := by exact_mod_cast hc
    have hmR : ((samp_num c f : ℝ)) = (c : ℝ) * 100 := by
      rw [hsn]
      push_cast
      ring
    apply Real.sin_pos_of_pos_of_lt_pi
    · rw [hmR]
      have hden : (0 : ℝ) < (c : ℝ) * 100 - 1 := by linarith
      have hnum : (0 : ℝ) < 2 * π * (c : ℝ) * ((1 : ℕ) : ℝ) := by
        have := Real.pi_pos
        push_cast
        nlinarith
      positivity
    · rw [hmR]
      rw [div_lt_iff₀ (by linarith)]
      have := Real.pi_pos
      push_cast
      nlinarith
  by_contra hmax
  push_neg at hmax
  have hne : spectrum (set_V_in c f) ≠ [] := by
    have hl : (spectrum (set_V_in c f)).length ≠ 0 := by
      rw [spectrum_length]
      omega
    intro h
    rw [h] at hl
    exact hl rfl
  have hbin : ∀ k, k < (set_V_in c f).length / 2 → dftBin (set_V_in c f) k = 0 := by
    intro k hk
    have hk2 : k < (spectrum (set_V_in c f)).length := by
      rw [spectrum_length]
      exact hk
    have hmem : (spectrum (set_V_in c f)).getD k 0 ∈ spectrum (set_V_in c f) := by
      rw [List.getD_eq_getElem?_getD, List.getElem?_eq_getElem hk2, Option.getD_some]
      exact List.getElem_mem hk2
    have hle : (spectrum (set_V_in c f)).getD k 0 ≤ 0 :=
      le_trans ((npMax_spec hne).2 _ hmem) hmax
    have hge : 0 ≤ (spectrum (set_V_in c f)).getD k 0 := spectrum_nonneg _ _ hmem
    have heq : (spectrum (set_V_in c f)).getD k 0 = 0 := le_antisymm hle hge
    rw [spectrum_getD _ k hk] at heq
    have habs : Complex.abs (dftBin (set_V_in c f) k) = 0 := by
      by_contra habs0
      have hpos : 0 < Complex.abs (dftBin (set_V_in c f) k) :=
        lt_of_le_of_ne (Complex.abs.nonneg _) (Ne.symm habs0)
      have hnR : (0 : ℝ) < ((set_V_in c f).length : ℝ) := by
        exact_mod_cast (by omega : 0 < (set_V_in c f).length)
      have : 0 < 2 * Complex.abs (dftBin (set_V_in c f) k)
          / ((set_V_in c f).length : ℝ) := by positivity
      linarith
    exact Complex.abs.eq_zero.mp habs
  have hmirror : ∀ k, k < (set_V_in c f).length → k ≠ (set_V_in c f).length / 2 →
      dftBin (set_V_in c f) k = 0 := by
    intro k hk hkhalf
    rcases lt_or_ge k ((set_V_in c f).length / 2) with h | h
    · exact hbin k h
    · have hk2 : (set_V_in c f).length - k < (set_V_in c f).length / 2 := by omega
      have hk3 : k = (set_V_in c f).length - ((set_V_in c f).length - k) := by omega
      rw [hk3, dftBin_mirror (set_V_in c f) ((set_V_in c f).length - k) (by omega),
        hbin _ hk2, map_zero]
  have hNyq : dftBin (set_V_in c f) ((set_V_in c f).length / 2) = 0 := by
    have hinv := dft_inversion (set_V_in c f) 0 (by omega)
    rw [hV0] at hinv
    simp only [Nat.cast_zero, mul_zero, zero_div, Complex.exp_zero, mul_one,
      Complex.ofReal_zero] at hinv
    have hsum : (∑ k ∈ Finset.range (set_V_in c f).length, dftBin (set_V_in c f) k)
        = dftBin (set_V_in c f) ((set_V_in c f).length / 2) := by
      apply Finset.sum_eq_single ((set_V_in c f).length / 2)
      · intro b hb hbne
        exact hmirror b (Finset.mem_range.mp hb) hbne
      · intro hnot
        exact absurd (Finset.mem_range.mpr (by omega)) hnot
    rw [hsum] at hinv
    exact hinv
  have hall : ∀ k, k < (set_V_in c f).length → dftBin (set_V_in c f) k = 0 := by
    intro k hk
    rcases eq_or_ne k ((set_V_in c f).length / 2) with rfl | hkne
    · exact hNyq
    · exact hmirror k hk hkne
  have hinv1 := dft_inversion (set_V_in c f) 1 (by omega)
  rw [Finset.sum_eq_zero
    (fun k hk => by rw [hall k (Finset.mem_range.mp hk), zero_mul])] at hinv1
  have hn0 : (((set_V_in c f).length : ℕ) : ℂ) ≠ 0 :=
    Nat.cast_ne_zero.mpr (by omega)
  have hz : (((set_V_in c f).getD 1 0 : ℝ) : ℂ) = 0 :=
    (mul_eq_zero.mp hinv1.symm).resolve_left hn0
  have : (set_V_in c f).getD 1 0 = 0 := by exact_mod_cast hz
  linarith

/-! ## C2: the empirical impedance is circular -/

/-- C2: for every valid parameter set, in exact real arithmetic the empirical
impedance equals the theoretical one exactly: the current list is the voltage
list scaled by -1/Z and the DFT is linear, so the current spectrum is the
voltage spectrum divided by Z, the current peak is the voltage peak divided by
Z, and the ratio of peaks is identically Z — the comparison is circular. -/
theorem C2_empirical_is_circular (p : Params) (h : Valid p) :
    (compare p).I_dft = (compare p).V_dft.map (fun a => a / (compare p).Z) ∧
      (compare p).I_amp = (compare p).V_amp / (compare p).Z ∧
      (compare p).Z_calc = (compare p).Z := by
  obtain ⟨hf, hf', hc, hc', hR, hR', hn, hn'⟩ := h
  have hZ : 0 < set_Z p.R p.nC p.freq := set_Z_pos p.R p.nC p.freq hn hf
  have hVa : 0 < npMax (spectrum (set_V_in p.cycle_num p.freq)) :=
    V_amp_pos p.cycle_num p.freq hc hf
  have h1 : spectrum (set_I_out (set_V_in p.cycle_num p.freq)
        (set_Z p.R p.nC p.freq))
      = (spectrum (set_V_in p.cycle_num p.freq)).map
          fun a => a / set_Z p.R p.nC p.freq :=
    spectrum_set_I_out _ _ hZ
  have h2 : npMax (spectrum (set_I_out (set_V_in p.cycle_num p.freq)
        (set_Z p.R p.nC p.freq)))
      = npMax (spectrum (set_V_in p.cycle_num p.freq)) / set_Z p.R p.nC p.freq := by
    rw [h1, npMax_map_div _ _ hZ]
  refine ⟨h1, h2, ?_⟩
  show npMax (spectrum (set_V_in p.cycle_num p.freq)) /
      npMax (spectrum (set_I_out (set_V_in p.cycle_num p.freq)
        (set_Z p.R p.nC p.freq)))
    = set_Z p.R p.nC p.freq
  rw [h2, div_div_eq_mul_div, mul_comm, mul_div_assoc, div_self (ne_of_gt hVa),
    mul_one]

/-- Witness for C2 at the valid parameter set freq=1000, cycles=2, R=100, nC=100. -/
theorem C2_witness :
    Valid ⟨1000, 2, 100, 100⟩ ∧
      (compare ⟨1000, 2, 100, 100⟩).Z_calc = (compare ⟨1000, 2, 100, 100⟩).Z :=
  ⟨by norm_num [Valid],
    (C2_empirical_is_circular ⟨1000, 2, 100, 100⟩ (by norm_num [Valid])).2.2⟩

/-! ## C9: the boundary parameter set is safe -/

/-- C9: at freq = 1, cycle_num = 1, R = 1, nC = 1 the pipeline runs without
division by zero or empty sequences: the sample count is at least 2, the time
and voltage lists are non-empty, the theoretical impedance is strictly
positive, and the current-peak divisor is nonzero. -/
theorem C9_boundary_safe :
    2 ≤ samp_num 1 1 ∧
      set_t 1 1 ≠ [] ∧
      set_V_in 1 1 ≠ [] ∧
      0 < (compare ⟨1, 1, 1, 1⟩).Z ∧
      (compare ⟨1, 1, 1, 1⟩).I_amp ≠ 0 := by
  have hsn : samp_num 1 1 = 100 := by
    have := samp_num_eq 1 1 (le_refl 1)
    omega
  have hZ : 0 < set_Z 1 1 1 := set_Z_pos 1 1 1 (le_refl 1) (le_refl 1)
  have hVa : 0 < npMax (spectrum (set_V_in 1 1)) :=
    V_amp_pos 1 1 (le_refl 1) (le_refl 1)
  have hIa : (compare ⟨1, 1, 1, 1⟩).I_amp
      = npMax (spectrum (set_V_in 1 1)) / set_Z 1 1 1 := by
    show npMax (spectrum (set_I_out (set_V_in 1 1) (set_Z 1 1 1))) = _
    rw [spectrum_set_I_out _ _ hZ, npMax_map_div _ _ hZ]
  refine ⟨by omega, ?_, ?_, hZ, ?_⟩
  · have hl : (set_t 1 1).length = 100 := by rw [set_t_length, hsn]
    intro h
    rw [h] at hl
    exact absurd hl (by simp)
  · have hl : (set_V_in 1 1).length = 100 := by rw [set_V_in_length, hsn]
    intro h
    rw [h] at hl
    exact absurd hl (by simp)
  · rw [hIa]
    exact ne_of_gt (div_pos hVa hZ)

/-! ## C8: no defensive validation, no failure channel -/

/-- C8 counterexample: at the out-of-bounds parameter set freq = 10001 (the
declared bound is 10000) the pipeline does not fail: it computes an ordinary
positive theoretical impedance and the plain numeric peak ratio. So the core
does not defensively validate parameter bounds and surfaces no typed failure;
bounds are enforced only by the slider declarations at the input surface. -/
theorem C8_counterexample :
    ¬ Valid ⟨10001, 1, 1, 1⟩ ∧
      0 < (compare ⟨10001, 1, 1, 1⟩).Z ∧
      (compare ⟨10001, 1, 1, 1⟩).Z_calc
        = (compare ⟨10001, 1, 1, 1⟩).V_amp / (compare ⟨10001, 1, 1, 1⟩).I_amp := by
  refine ⟨?_, set_Z_pos 1 1 10001 (le_refl 1) (by omega), rfl⟩
  intro h
  have h2 : (10001 : ℕ) ≤ 10000 := h.2.1
  omega

/-- C8 amended: the core performs no validation and has no failure channel.
For any parameter values with freq ≥ 1 and nC ≥ 1 — including values far
outside the declared bounds — every pipeline stage is a total numeric
function: the theoretical impedance is a positive real and the empirical
impedance is the plain quotient of the two peak amplitudes, with no error
value anywhere. -/
theorem C8_amended_no_validation (freq cycle_num R nC : ℕ)
    (hf : 1 ≤ freq) (hn : 1 ≤ nC) :
    0 < (compare ⟨freq, cycle_num, R, nC⟩).Z ∧
      (compare ⟨freq, cycle_num, R, nC⟩).Z_calc
        = (compare ⟨freq, cycle_num, R, nC⟩).V_amp
          / (compare ⟨freq, cycle_num, R, nC⟩).I_amp :=
  ⟨set_Z_pos R nC freq hn hf, rfl⟩

/-- Witness for the amended C8 at the out-of-bounds values freq = 20000,
cycle_num = 99, R = 0, nC = 2000. -/
theorem C8_amended_witness :
    0 < (compare ⟨20000, 99, 0, 2000⟩).Z ∧
      (compare ⟨20000, 99, 0, 2000⟩).Z_calc
        = (compare ⟨20000, 99, 0, 2000⟩).V_amp
          / (compare ⟨20000, 99, 0, 2000⟩).I_amp :=
  C8_amended_no_validation 20000 99 0 2000 (by norm_num) (by norm_num)

end

end SimRC
